import Mathlib

/-!
Verification model of the aesara graph intermediate representation, its
rewrite engine and the Scan pushout rewrites.  The excerpted corpus ships
only the test suite (tests/scan/test_opt.py); the library implementation
(the node model, FGraph, the rewrite database and the Scan construct) is
not part of the corpus, so the definitions below are modelled from the
specification document and checked against it.  Exact integer arithmetic
stands in for the floating point numbers of the missing numeric kernels,
so that numerical equivalence becomes plain equality.
-/

namespace AesaraSpec

/-- Modelled from the spec: a numeric value flowing along an edge of the
graph, either a vector or a matrix (the numeric kernels themselves are out
of the corpus).  Integers replace floats so equality is exact. -/
inductive Val where
  | v (xs : List Int)
  | m (xss : List (List Int))
  deriving DecidableEq, Repr

/-- Dot product of two integer lists. -/
def dotProd (a b : List Int) : Int :=
  (List.zipWith (fun x y => x * y) a b).sum

/-- Vector times matrix: one entry per column of the matrix. -/
def vecMat (x : List Int) (yss : List (List Int)) : List Int :=
  yss.transpose.map (fun col => dotProd x col)

/-- Batched linear map: each row of the first argument is mapped through
the matrix, as in the hoisted (pushed-out) computation. -/
def matMulM (a b : List (List Int)) : List (List Int) :=
  a.map (fun r => vecMat r b)

/-- View a value as a vector (a matrix is flattened; well-formed graphs do
not rely on this fallback). -/
def asVec : Val → List Int
  | .v xs => xs
  | .m xss => xss.flatten

/-- View a value as a matrix (a vector becomes a one-row matrix). -/
def asMat : Val → List (List Int)
  | .m xss => xss
  | .v xs => [xs]

/-- Modelled from the spec: the per-step linear map of the pushout
scenario, a vector applied to a loop-invariant matrix. -/
def dotVal (a b : Val) : Val :=
  Val.v (vecMat (asVec a) (asMat b))

/-- Pointwise sum of two integer lists. -/
def zipAdd (a b : List Int) : List Int :=
  List.zipWith (fun x y => x + y) a b

/-- Elementwise addition on values. -/
def addVal : Val → Val → Val
  | .v a, .v b => .v (zipAdd a b)
  | .m a, .m b => .m (List.zipWith zipAdd a b)
  | a, _ => a

/-- Elementwise multiplication on values. -/
def mulVal : Val → Val → Val
  | .v a, .v b => .v (List.zipWith (fun x y => x * y) a b)
  | .m a, .m b => .m (List.zipWith (List.zipWith (fun x y => x * y)) a b)
  | a, _ => a

/-- Elementwise square on values. -/
def squareVal : Val → Val
  | .v a => .v (a.map (fun x => x * x))
  | .m a => .m (a.map (fun r => r.map (fun x => x * x)))

/-- Modelled from the spec: an expression of the inner (loop body) graph
of a Scan.  Atoms name the three declared input roles of the Scan
contract: per-step sequence inputs, recurrent state carried from the
previous step, and loop-invariant non-sequence inputs. -/
inductive IExpr where
  | seqIn (i : Nat)
  | recIn (i : Nat)
  | nonSeqIn (i : Nat)
  | dot (a b : IExpr)
  | add (a b : IExpr)
  | mul (a b : IExpr)
  | square (a : IExpr)
  deriving DecidableEq, Repr

/-- Environment of one loop step: current values of the sequence inputs,
the recurrent state, and the non-sequence inputs. -/
structure Env where
  seqVals : List Val
  recVals : List Val
  nonSeqVals : List Val

/-- Evaluation of an inner-graph expression in a step environment. -/
def evalI : IExpr → Env → Val
  | .seqIn i, e => e.seqVals.getD i (Val.v [])
  | .recIn i, e => e.recVals.getD i (Val.v [])
  | .nonSeqIn i, e => e.nonSeqVals.getD i (Val.v [])
  | .dot a b, e => dotVal (evalI a e) (evalI b e)
  | .add a b, e => addVal (evalI a e) (evalI b e)
  | .mul a b, e => mulVal (evalI a e) (evalI b e)
  | .square a, e => squareVal (evalI a e)

/-- Modelled from the spec: a Scan operation.  Its descriptor embeds the
loop body and the sequencing contract: `recurOuts` are the
iteration-carried (recurrent) outputs fed back as state, `nitsotOuts` the
store-all-steps outputs that feed no recurrence. -/
structure Scan where
  nSeqs : Nat
  nNonSeqs : Nat
  recurOuts : List IExpr
  nitsotOuts : List IExpr
  deriving DecidableEq, Repr

/-- All inner outputs of the Scan body, recurrent outputs first. -/
def innerOutputs (s : Scan) : List IExpr :=
  s.recurOuts ++ s.nitsotOuts

/-- Whether an inner expression is produced by the dot operation. -/
def isDotE : IExpr → Bool
  | .dot _ _ => true
  | _ => false

/-- Whether an inner expression reads recurrent state from the previous
step (condition (a) of the pushout transition rule). -/
def readsRec : IExpr → Bool
  | .seqIn _ => false
  | .recIn _ => true
  | .nonSeqIn _ => false
  | .dot a b => readsRec a || readsRec b
  | .add a b => readsRec a || readsRec b
  | .mul a b => readsRec a || readsRec b
  | .square a => readsRec a

/-- Post-processing applied outside the loop to one output stream of the
rewritten Scan: either nothing, or the hoisted batched linear map against
the k-th non-sequence (loop-invariant) input. -/
inductive Post where
  | keep
  | pushDot (k : Nat)
  deriving DecidableEq, Repr

/-- Modelled from the spec: the pushout decision for one store-all-steps
inner output.  A linear map over a loop-invariant matrix whose vector
operand reads no recurrent state is hoisted (the inner output becomes the
vector, the dot moves outside as a batched map); any candidate that reads
recurrent state, and any other expression, is conservatively kept. -/
def pushOne : IExpr → IExpr × Post
  | .dot a (.nonSeqIn k) =>
    if readsRec a = true then (.dot a (.nonSeqIn k), .keep) else (a, .pushDot k)
  | e => (e, .keep)

/-- Modelled from the spec: the scan_pushout_add rewrite on a whole Scan
node.  Recurrent outputs are never touched; each store-all-steps output is
examined by `pushOne`.  The returned list records, per store-all-steps
output, the computation hoisted outside the loop. -/
def pushOutScan (s : Scan) : Scan × List Post :=
  (⟨s.nSeqs, s.nNonSeqs, s.recurOuts, (s.nitsotOuts.map pushOne).map Prod.fst⟩,
   (s.nitsotOuts.map pushOne).map Prod.snd)

/-- Step environment at time `t` with state `st`. -/
def stepEnv (seqs : List (List Val)) (nonseqs : List Val) (t : Nat) (st : List Val) : Env :=
  ⟨seqs.map (fun sq => sq.getD t (Val.v [])), st, nonseqs⟩

/-- The recurrent state before step `t`, driven by the recurrent output
expressions. -/
def stateSeq (recs : List IExpr) (seqs : List (List Val)) (nonseqs : List Val)
    (init : List Val) : Nat → List Val
  | 0 => init
  | t + 1 =>
    recs.map (fun e => evalI e (stepEnv seqs nonseqs t (stateSeq recs seqs nonseqs init t)))

/-- The stream of per-step values of one inner expression over `n` steps. -/
def exprStream (recs : List IExpr) (seqs : List (List Val)) (nonseqs : List Val)
    (init : List Val) (e : IExpr) (n : Nat) : List Val :=
  (List.range n).map (fun t => evalI e (stepEnv seqs nonseqs t (stateSeq recs seqs nonseqs init t)))

/-- Modelled from the spec: the semantics of an unrewritten Scan node.
One stream per inner output, recurrent outputs first. -/
def scanResult (s : Scan) (seqs : List (List Val)) (nonseqs : List Val)
    (init : List Val) (n : Nat) : List (List Val) :=
  (innerOutputs s).map (fun e => exprStream s.recurOuts seqs nonseqs init e n)

/-- Apply the outside-the-loop part of a pushed-out computation to a
collected output stream. -/
def applyPost (nonseqs : List Val) : Post → List Val → List Val
  | .keep, stream => stream
  | .pushDot k, stream =>
    (matMulM (stream.map asVec) (asMat (nonseqs.getD k (Val.v [])))).map Val.v

/-- Modelled from the spec: the semantics of the graph after the pushout
rewrite: run the rewritten Scan, then apply each hoisted batched linear
map outside the loop. -/
def runRewritten (s : Scan) (seqs : List (List Val)) (nonseqs : List Val)
    (init : List Val) (n : Nat) : List (List Val) :=
  ((pushOutScan s).1.recurOuts.map
      (fun e => exprStream (pushOutScan s).1.recurOuts seqs nonseqs init e n))
  ++ (List.zip (pushOutScan s).1.nitsotOuts (pushOutScan s).2).map
      (fun ep => applyPost nonseqs ep.2 (exprStream (pushOutScan s).1.recurOuts seqs nonseqs init ep.1 n))

theorem pushOutScan_recurOuts (s : Scan) : (pushOutScan s).1.recurOuts = s.recurOuts := rfl

theorem pushOutScan_nitsotOuts (s : Scan) :
    (pushOutScan s).1.nitsotOuts = (s.nitsotOuts.map pushOne).map Prod.fst := rfl

theorem pushOutScan_posts (s : Scan) :
    (pushOutScan s).2 = (s.nitsotOuts.map pushOne).map Prod.snd := rfl

/-- Per-output soundness of the pushout decision: running the possibly
hoisted form and post-processing it outside the loop yields exactly the
stream of the original inner output. -/
theorem pushOne_sem (recs : List IExpr) (seqs : List (List Val)) (nonseqs : List Val)
    (init : List Val) (n : Nat) (e : IExpr) :
    applyPost nonseqs (pushOne e).2 (exprStream recs seqs nonseqs init (pushOne e).1 n)
      = exprStream recs seqs nonseqs init e n := by
  match e with
  | .seqIn i => rfl
  | .recIn i => rfl
  | .nonSeqIn i => rfl
  | .add a b => rfl
  | .mul a b => rfl
  | .square a => rfl
  | .dot a b =>
    match b with
    | .seqIn i => rfl
    | .recIn i => rfl
    | .dot x y => rfl
    | .add x y => rfl
    | .mul x y => rfl
    | .square x => rfl
    | .nonSeqIn k =>
      by_cases h : readsRec a = true
      · simp [pushOne, h, applyPost]
      · simp [pushOne, h, applyPost, exprStream, matMulM, List.map_map, evalI, dotVal,
          stepEnv]

/-- Soundness of the whole pushout rewrite: the rewritten graph (rewritten
Scan plus hoisted batched maps) computes the same output streams as the
original Scan, for every Scan and every input. -/
theorem pushout_equiv (s : Scan) (seqs : List (List Val)) (nonseqs : List Val)
    (init : List Val) (n : Nat) :
    runRewritten s seqs nonseqs init n = scanResult s seqs nonseqs init n := by
  have hnit : ∀ l : List IExpr,
      (List.zip ((l.map pushOne).map Prod.fst) ((l.map pushOne).map Prod.snd)).map
        (fun ep => applyPost nonseqs ep.2 (exprStream s.recurOuts seqs nonseqs init ep.1 n))
      = l.map (fun e => exprStream s.recurOuts seqs nonseqs init e n) := by
    intro l
    induction l with
    | nil => rfl
    | cons e t ih =>
      simp only [List.map_cons, List.zip_cons_cons, pushOne_sem, ih]
  simp only [runRewritten, scanResult, innerOutputs, List.map_append,
    pushOutScan_recurOuts, pushOutScan_nitsotOuts, pushOutScan_posts]
  exact congrArg
    (fun x => s.recurOuts.map (fun e => exprStream s.recurOuts seqs nonseqs init e n) ++ x)
    (hnit s.nitsotOuts)

/-- Modelled from the spec: the error taxonomy of the missing core
(TypeMismatch, MissingInputError, InconsistencyError, ContractError). -/
inductive CoreErr where
  | typeMismatch
  | missingInput
  | inconsistency
  | contractError
  deriving DecidableEq, Repr

/-- Modelled from the spec: the declared sequencing contract of a Scan
node — how many per-step sequences, recurrent states, store-all-steps
outputs and loop-invariant inputs it declares. -/
structure ScanSig where
  nSeqs : Nat
  nRecur : Nat
  nNitsot : Nat
  nNonSeqs : Nat
  deriving DecidableEq, Repr

/-- Modelled from the spec: the nested loop-body graph handed to the Scan
constructor: its actual input count and its actual output expressions. -/
structure ScanBody where
  nIns : Nat
  outs : List IExpr
  deriving DecidableEq, Repr

/-- Whether an inner expression only references inputs the signature
declares. -/
def exprOkB (sig : ScanSig) : IExpr → Bool
  | .seqIn i => decide (i < sig.nSeqs)
  | .recIn i => decide (i < sig.nRecur)
  | .nonSeqIn i => decide (i < sig.nNonSeqs)
  | .dot a b => exprOkB sig a && exprOkB sig b
  | .add a b => exprOkB sig a && exprOkB sig b
  | .mul a b => exprOkB sig a && exprOkB sig b
  | .square a => exprOkB sig a

/-- Modelled from the spec: the construction-time contract check — the
nested graph's input/output arity and ordering must exactly match the
declared sequence/state/non-sequence contract. -/
def checkContract (sig : ScanSig) (b : ScanBody) : Bool :=
  decide (b.nIns = sig.nSeqs + sig.nRecur + sig.nNonSeqs)
  && decide (b.outs.length = sig.nRecur + sig.nNitsot)
  && b.outs.all (exprOkB sig)

/-- Modelled from the spec: the Scan constructor; a contract mismatch is a
construction-time ContractError. -/
def mkScan (sig : ScanSig) (b : ScanBody) : Except CoreErr Scan :=
  if checkContract sig b = true then
    Except.ok ⟨sig.nSeqs, sig.nNonSeqs, b.outs.take sig.nRecur, b.outs.drop sig.nRecur⟩
  else Except.error CoreErr.contractError

/-- Well-formedness of a constructed Scan against its own contract. -/
def scanWfB (s : Scan) : Bool :=
  (innerOutputs s).all
    (exprOkB ⟨s.nSeqs, s.recurOuts.length, s.nitsotOuts.length, s.nNonSeqs⟩)

/-- The pushout decision keeps any expression well formed: it returns the
expression itself or the vector operand of its top-level dot. -/
theorem pushOne_ok (sig : ScanSig) (e : IExpr) (h : exprOkB sig e = true) :
    exprOkB sig (pushOne e).1 = true := by
  match e with
  | .seqIn i => exact h
  | .recIn i => exact h
  | .nonSeqIn i => exact h
  | .add a b => exact h
  | .mul a b => exact h
  | .square a => exact h
  | .dot a b =>
    match b with
    | .seqIn i => exact h
    | .recIn i => exact h
    | .dot x y => exact h
    | .add x y => exact h
    | .mul x y => exact h
    | .square x => exact h
    | .nonSeqIn k =>
      by_cases hr : readsRec a = true
      · simpa [pushOne, hr] using h
      · have ha : exprOkB sig a = true := by
          simp only [exprOkB, Bool.and_eq_true] at h
          exact h.1
        simpa [pushOne, hr] using ha

/-- The pushout rewrite preserves the Scan contract: the rewritten inner
graph still matches the declared roles (condition (c) of the transition
rule). -/
theorem pushOut_preserves_wf (s : Scan) (h : scanWfB s = true) :
    scanWfB (pushOutScan s).1 = true := by
  have hlen : (pushOutScan s).1.nitsotOuts.length = s.nitsotOuts.length := by
    simp [pushOutScan_nitsotOuts]
  simp only [scanWfB, innerOutputs, List.all_append, Bool.and_eq_true,
    pushOutScan_recurOuts, pushOutScan_nitsotOuts] at h ⊢
  rw [List.length_map, List.length_map]
  obtain ⟨h1, h2⟩ := h
  refine ⟨h1, ?_⟩
  rw [List.all_eq_true] at h2 ⊢
  intro x hx
  rw [List.map_map, List.mem_map] at hx
  obtain ⟨e, he, rfl⟩ := hx
  exact pushOne_ok _ e (h2 e he)

/-- A candidate that reads recurrent state from the previous step is never
hoisted: the pushout decision keeps it verbatim. -/
theorem pushOne_keep (e : IExpr) (hr : readsRec e = true) : pushOne e = (e, Post.keep) := by
  match e with
  | .seqIn i => rfl
  | .recIn i => rfl
  | .nonSeqIn i => rfl
  | .add a b => rfl
  | .mul a b => rfl
  | .square a => rfl
  | .dot a b =>
    match b with
    | .seqIn i => rfl
    | .recIn i => rfl
    | .dot x y => rfl
    | .add x y => rfl
    | .mul x y => rfl
    | .square x => rfl
    | .nonSeqIn k =>
      have ha : readsRec a = true := by simpa [readsRec] using hr
      simp [pushOne, ha]

/-- Modelled from the spec: a rewrite-selection profile naming included
and excluded rule tags. -/
structure Profile where
  inc : List String
  exc : List String

/-- Whether a rule with the given tags is enabled by the profile: some tag
must be included and none may be excluded. -/
def tagEnabled (p : Profile) (tags : List String) : Bool :=
  tags.any (fun t => p.inc.contains t) && tags.all (fun t => !(p.exc.contains t))

/-- The tags of the Scan pushout rewrite rule. -/
def pushOutTags : List String := ["scan", "scan_pushout_add"]

/-- Modelled from the spec: compiling one Scan node under a profile — the
pushout rewrite fires only when its tag selection is enabled. -/
def scanCompile (p : Profile) (s : Scan) : Scan × List Post :=
  if tagEnabled p pushOutTags = true then pushOutScan s
  else (s, s.nitsotOuts.map (fun _ => Post.keep))

/-- The profile that includes the scan rewrites. -/
def optMode : Profile := ⟨["scan"], []⟩

/-- The profile that excludes the scan_pushout_add rewrite. -/
def noOptMode : Profile := ⟨["scan"], ["scan_pushout_add"]⟩

/-- The Scan produced for the jacobian of dot(v, m) with respect to v: the
body applies the loop-invariant matrix to a per-step vector. -/
def jacScan : Scan := ⟨1, 1, [], [IExpr.dot (IExpr.seqIn 0) (IExpr.nonSeqIn 0)]⟩

/-- The Scan of the nitsot test: the vector operand of the dot is itself a
store-all-steps output of the inner function. -/
def nitsotScan : Scan :=
  ⟨1, 1, [],
   [IExpr.dot (IExpr.square (IExpr.seqIn 0)) (IExpr.nonSeqIn 0),
    IExpr.square (IExpr.seqIn 0)]⟩

/-- The recurrent-reading dot of the sitsot test: the vector operand is
the updated recurrent state. -/
def sitsotDotExpr : IExpr :=
  IExpr.dot (IExpr.add (IExpr.recIn 0) (IExpr.seqIn 0)) (IExpr.nonSeqIn 0)

/-- The Scan of the sitsot test: a recurrent update plus a dot that reads
it. -/
def sitsotScan : Scan :=
  ⟨1, 1, [IExpr.add (IExpr.recIn 0) (IExpr.seqIn 0)], [sitsotDotExpr]⟩

/-- The concrete pushout scenario: a 3-step Scan over 4-dimensional
sequence vectors, a per-step additive bias computed inside the loop, and a
4 times 5 loop-invariant weight matrix. -/
def c1Scan : Scan :=
  ⟨2, 1, [], [IExpr.dot (IExpr.add (IExpr.seqIn 0) (IExpr.seqIn 1)) (IExpr.nonSeqIn 0)]⟩

/-- Concrete 3-step inputs for the two sequences of `c1Scan`. -/
def c1Seqs : List (List Val) :=
  [[Val.v [1, 2, 3, 4], Val.v [0, 1, 0, 1], Val.v [2, 0, 1, 3]],
   [Val.v [1, 1, 1, 1], Val.v [0, 0, 0, 0], Val.v [1, 0, 1, 0]]]

/-- The concrete 4 times 5 loop-invariant weight matrix of `c1Scan`. -/
def c1NonSeqs : List Val :=
  [Val.m [[1, 0, 0, 0, 1], [0, 1, 0, 0, 1], [0, 0, 1, 0, 1], [0, 0, 0, 1, 1]]]

/-- C1: for every Scan whose body contains a pushable-out linear map over
a loop-invariant matrix and a per-step vector sequence, the graph with the
pushout rewrite applied and the graph without it produce equal results for
identical inputs (exact arithmetic, so equality implies any floating-point
tolerance); in particular the rewrite fires on the concrete 3-step Scan
over 4-dimensional sequence vectors with a 4 times 5 loop-invariant weight
matrix, and both graphs produce the same concrete output streams. -/
theorem C1_pushout_semantic_equivalence :
    (∀ (s : Scan) (seqs : List (List Val)) (nonseqs init : List Val) (n : Nat),
        runRewritten s seqs nonseqs init n = scanResult s seqs nonseqs init n)
    ∧ (pushOutScan c1Scan).2 = [Post.pushDot 0]
    ∧ runRewritten c1Scan c1Seqs c1NonSeqs [] 3
        = [[Val.v [2, 3, 4, 5, 14], Val.v [0, 1, 0, 1, 2], Val.v [3, 0, 2, 3, 8]]]
    ∧ scanResult c1Scan c1Seqs c1NonSeqs [] 3
        = [[Val.v [2, 3, 4, 5, 14], Val.v [0, 1, 0, 1, 2], Val.v [3, 0, 2, 3, 8]]] :=
  ⟨fun s seqs nonseqs init n => pushout_equiv s seqs nonseqs init n,
   by decide, by decide, by decide⟩

/-- C2: a per-step computation that depends on the prior step's recurrent
state is never hoisted out of the loop: the pushout rewrite leaves the
recurrent outputs untouched and leaves any store-all-steps output that
reads recurrent state exactly where it was, unchanged. -/
theorem C2_recurrent_never_pushed (s : Scan) (j : Nat) (e : IExpr)
    (hj : s.nitsotOuts[j]? = some e) (hr : readsRec e = true) :
    (pushOutScan s).1.recurOuts = s.recurOuts
    ∧ (pushOutScan s).1.nitsotOuts[j]? = some e := by
  refine ⟨rfl, ?_⟩
  rw [pushOutScan_nitsotOuts, List.map_map, List.getElem?_map, hj]
  simp [Function.comp, pushOne_keep e hr]

/-- Witness for C2 at the sitsot test Scan: its dot reads the updated
recurrent state and survives the rewrite unchanged. -/
theorem C2_recurrent_never_pushed_witness :
    sitsotScan.nitsotOuts[0]? = some sitsotDotExpr
    ∧ readsRec sitsotDotExpr = true
    ∧ ((pushOutScan sitsotScan).1.recurOuts = sitsotScan.recurOuts
       ∧ (pushOutScan sitsotScan).1.nitsotOuts[0]? = some sitsotDotExpr) :=
  ⟨rfl, rfl, C2_recurrent_never_pushed sitsotScan 0 sitsotDotExpr rfl rfl⟩

/-- C6: rewrite rules are toggled by named tag per compilation: with the
profile that excludes scan_pushout_add the dot stays inside the Scan body,
and with the scan rewrites included the jacobian-of-dot Scan's inner
function is left with exactly one output, which is not produced by a dot. -/
theorem C6_tag_selection_toggles_pushout :
    (scanCompile noOptMode jacScan).1 = jacScan
    ∧ isDotE ((scanCompile noOptMode jacScan).1.nitsotOuts.getD 0 (IExpr.seqIn 0)) = true
    ∧ (innerOutputs (scanCompile optMode jacScan).1).length = 1
    ∧ isDotE ((innerOutputs (scanCompile optMode jacScan).1).getD 0 (IExpr.seqIn 0)) = false := by
  refine ⟨?_, ?_, ?_, ?_⟩ <;> decide

/-- C7: a Scan whose declared sequence/state/non-sequence roles do not
match the arity of its nested body fails at construction time with
ContractError; the mismatch is never discovered during rewriting, because
the pushout rewrite preserves contract well-formedness. -/
theorem C7_contract_error_at_construction (sig : ScanSig) (b : ScanBody)
    (h : checkContract sig b = false) :
    mkScan sig b = Except.error CoreErr.contractError
    ∧ ∀ s : Scan, scanWfB s = true → scanWfB (pushOutScan s).1 = true := by
  refine ⟨?_, fun s hs => pushOut_preserves_wf s hs⟩
  simp [mkScan, h]

/-- Witness for C7 at a concrete mismatched contract: one declared
sequence, state, store-all-steps output and non-sequence, but a body with
two inputs and no outputs. -/
theorem C7_contract_error_witness :
    checkContract ⟨1, 1, 1, 1⟩ ⟨2, []⟩ = false
    ∧ mkScan ⟨1, 1, 1, 1⟩ ⟨2, []⟩ = Except.error CoreErr.contractError :=
  ⟨by decide, (C7_contract_error_at_construction ⟨1, 1, 1, 1⟩ ⟨2, []⟩ (by decide)).1⟩

/-- C10: when the vector operand of a pushable dot is already a
store-all-steps output of the inner function, the rewritten Scan keeps
exactly two inner outputs, the stored vector remains a separate inner
output, the first output is no longer produced by a dot, and the rewritten
graph still computes the same results as the unrewritten one. -/
theorem C10_nitsot_operand_kept_separate :
    (innerOutputs (pushOutScan nitsotScan).1).length = 2
    ∧ (pushOutScan nitsotScan).1.nitsotOuts
        = [IExpr.square (IExpr.seqIn 0), IExpr.square (IExpr.seqIn 0)]
    ∧ isDotE ((innerOutputs (pushOutScan nitsotScan).1).getD 0 (IExpr.seqIn 0)) = false
    ∧ ∀ (seqs : List (List Val)) (nonseqs init : List Val) (n : Nat),
        runRewritten nitsotScan seqs nonseqs init n
          = scanResult nitsotScan seqs nonseqs init n :=
  ⟨by decide, by decide, by decide,
   fun seqs nonseqs init n => pushout_equiv nitsotScan seqs nonseqs init n⟩

/-- Modelled from the spec: an Apply node — an operation instance with an
operation tag and ordered input and output Variable ids (the arena-of-ids
representation suggested by the design notes). -/
structure Apply where
  op : Nat
  inputs : List Nat
  outputs : List Nat
  deriving DecidableEq, Repr

/-- Placeholder Apply used for out-of-range id lookups. -/
def defaultApply : Apply := ⟨0, [], []⟩

/-- Indices of the Apply nodes producing the variable `v`. -/
def producersOf (apps : List Apply) (v : Nat) : List Nat :=
  (List.range apps.length).filter (fun j => (apps.getD j defaultApply).outputs.contains v)

/-- Indices of the Apply nodes the `i`-th Apply directly depends on: the
producers of its inputs. -/
def directDeps (apps : List Apply) (i : Nat) : List Nat :=
  ((apps.getD i defaultApply).inputs.map (fun v => producersOf apps v)).flatten

/-- One expansion step of the dependency closure. -/
def closStep (apps : List Apply) (cur : List Nat) : List Nat :=
  (cur ++ (cur.map (directDeps apps)).flatten).dedup

/-- Iterated expansion of the dependency closure. -/
def closIter (apps : List Apply) : Nat → List Nat → List Nat
  | 0, cur => cur
  | n + 1, cur => closIter apps n (closStep apps cur)

/-- All Apply indices transitively reachable through dependency edges from
the given start set. -/
def depClosure (apps : List Apply) (start : List Nat) : List Nat :=
  closIter apps apps.length start

/-- Whether the `i`-th Apply transitively depends on its own output. -/
def selfDepB (apps : List Apply) (i : Nat) : Bool :=
  (depClosure apps (directDeps apps i)).contains i

/-- The DAG property: no Apply transitively depends on its own output. -/
def acyclicB (apps : List Apply) : Bool :=
  (List.range apps.length).all (fun i => !(selfDepB apps i))

/-- Modelled from the spec: the FGraph container — declared inputs, the
ordered outputs, the owned Apply nodes, a type table for variables and the
reverse client index. -/
structure FGraph where
  inputs : List Nat
  outputs : List Nat
  applies : List Apply
  types : List (Nat × Nat)
  clients : List (Nat × List (Nat × Nat))
  deriving DecidableEq, Repr

/-- The `(Apply index, input position)` pairs consuming variable `v`. -/
def clientsOfVar (apps : List Apply) (v : Nat) : List (Nat × Nat) :=
  ((List.range apps.length).map (fun ai =>
    (List.range (apps.getD ai defaultApply).inputs.length).filterMap (fun pos =>
      if (apps.getD ai defaultApply).inputs.getD pos (v + 1) = v then some (ai, pos)
      else none))).flatten

/-- All variable ids mentioned by the graph. -/
def varListOf (ins : List Nat) (apps : List Apply) : List Nat :=
  (ins ++ (apps.map (fun a => a.inputs ++ a.outputs)).flatten).dedup

/-- The client index recomputed from the actual graph edges. -/
def computeClients (apps : List Apply) (vars : List Nat) : List (Nat × List (Nat × Nat)) :=
  vars.map (fun v => (v, clientsOfVar apps v))

/-- Build an FGraph whose client index is consistent with its edges. -/
def mkFGraph (ins outs : List Nat) (apps : List Apply) (tys : List (Nat × Nat)) : FGraph :=
  ⟨ins, outs, apps, tys, computeClients apps (varListOf ins apps)⟩

/-- The type descriptor attached to a variable. -/
def typeOf (g : FGraph) (v : Nat) : Option Nat :=
  g.types.lookup v

/-- The type signature of the declared outputs. -/
def outTypes (g : FGraph) : List (Option Nat) :=
  g.outputs.map (fun v => typeOf g v)

/-- Redirect a single variable reference. -/
def substVar (a b v : Nat) : Nat :=
  if v = a then b else v

/-- Redirect every input edge of one Apply from `a` to `b`. -/
def applySubst (a b : Nat) (x : Apply) : Apply :=
  ⟨x.op, x.inputs.map (substVar a b), x.outputs⟩

/-- The mutated graph: every client edge pointing at `a` is redirected to
`b` and the client index is rebuilt transactionally. -/
def doReplace (g : FGraph) (a b : Nat) : FGraph :=
  mkFGraph g.inputs (g.outputs.map (substVar a b)) (g.applies.map (applySubst a b)) g.types

/-- Re-validation after a mutation: the DAG property must still hold. -/
def validateB (g : FGraph) : Bool :=
  acyclicB g.applies

/-- Modelled from the spec: FGraph.replace — redirect the clients of `a`
to `b`, re-validate the DAG property, type compatibility and output
arity; on validation failure report InconsistencyError and roll back to
the untouched pre-replace graph. -/
def replace (g : FGraph) (a b : Nat) : FGraph × Option CoreErr :=
  if typeOf g a = typeOf g b
      ∧ validateB (doReplace g a b) = true
      ∧ (doReplace g a b).outputs.length = g.outputs.length then
    (doReplace g a b, none)
  else (g, some CoreErr.inconsistency)

/-- Apply indices producing the declared outputs. -/
def outApplies (g : FGraph) : List Nat :=
  (g.outputs.map (fun v => producersOf g.applies v)).flatten

/-- Apply indices reachable from the declared outputs. -/
def reachFromOutputs (g : FGraph) : List Nat :=
  depClosure g.applies (outApplies g)

/-- No Apply reachable from a declared output transitively depends on its
own output. -/
def noCycleFromOutputs (g : FGraph) : Bool :=
  (reachFromOutputs g).all (fun i => !(selfDepB g.applies i))

/-- The graph after a sequence of replace calls (a failed call leaves the
graph untouched, per the rollback contract). -/
def replaceSeq (g : FGraph) : List (Nat × Nat) → FGraph
  | [] => g
  | p :: ps => replaceSeq (replace g p.1 p.2).1 ps

/-- Whether every replace call of the sequence succeeds. -/
def replaceSeqOk (g : FGraph) : List (Nat × Nat) → Bool
  | [] => true
  | p :: ps => decide ((replace g p.1 p.2).2 = none) && replaceSeqOk (replace g p.1 p.2).1 ps

/-- Modelled from the spec: a named local rewrite rule — tags for
include/exclude selection and a transform proposing a replacement pair for
a visited Apply node, or declaring no change. -/
structure LocalRule where
  name : String
  tags : List String
  transform : FGraph → Nat → Option (Nat × Nat)

/-- Whether a rule is enabled by the compilation profile. -/
def ruleEnabled (p : Profile) (r : LocalRule) : Bool :=
  tagEnabled p r.tags

/-- Try the enabled rules on one visited node, in priority order; the
first rule that fires and whose replace call validates is applied (a
failed replace is discarded and the engine proceeds). -/
def tryRules : List LocalRule → FGraph → Nat → FGraph × Bool
  | [], g, _ => (g, false)
  | r :: rs, g, i =>
    (r.transform g i).elim (tryRules rs g i) (fun pr =>
      if (replace g pr.1 pr.2).2 = none then ((replace g pr.1 pr.2).1, true)
      else tryRules rs g i)

/-- Visit a work list of node indices once, accumulating whether any
rewrite fired. -/
def sweep (rules : List LocalRule) : List Nat → FGraph → Bool → FGraph × Bool
  | [], g, ch => (g, ch)
  | i :: rest, g, ch =>
    sweep rules rest (tryRules rules g i).1 (ch || (tryRules rules g i).2)

/-- One full local-rewrite pass over the graph. -/
def onePass (rules : List LocalRule) (g : FGraph) : FGraph × Bool :=
  sweep rules (List.range g.applies.length) g false

/-- Modelled from the spec: the fixpoint iteration of the rewrite engine —
passes repeat until a pass produces zero changes or the iteration cap is
reached; the Boolean reports convergence (false is the cap warning). -/
def engineLoop (rules : List LocalRule) : Nat → FGraph → FGraph × Bool
  | 0, g => (g, !(onePass rules g).2)
  | n + 1, g =>
    if (onePass rules g).2 = true then engineLoop rules n (onePass rules g).1
    else (g, true)

/-- The rewrite engine: filter the rule database by the profile, then
iterate passes up to the cap. -/
def engineRun (rules : List LocalRule) (p : Profile) (cap : Nat) (g : FGraph) : FGraph × Bool :=
  engineLoop (rules.filter (fun r => ruleEnabled p r)) cap g

/-- Modelled from the spec: the single compile entry point — build the
FGraph from inputs, outputs and nodes, then run the rewrite engine under
the given profile and iteration cap. -/
def compile (rules : List LocalRule) (cap : Nat) (p : Profile) (ins outs : List Nat)
    (apps : List Apply) (tys : List (Nat × Nat)) : FGraph :=
  (engineRun rules p cap (mkFGraph ins outs apps tys)).1

/-- Structural equivalence of two graphs: identical inputs, outputs,
nodes, types and client index. -/
def structEquiv (g1 g2 : FGraph) : Prop :=
  g1.inputs = g2.inputs ∧ g1.outputs = g2.outputs ∧ g1.applies = g2.applies
  ∧ g1.types = g2.types ∧ g1.clients = g2.clients

theorem mem_producersOf_lt {apps : List Apply} {v j : Nat} (h : j ∈ producersOf apps v) :
    j < apps.length :=
  List.mem_range.mp (List.mem_filter.mp h).1

theorem mem_directDeps_lt {apps : List Apply} {i j : Nat} (h : j ∈ directDeps apps i) :
    j < apps.length := by
  rw [directDeps, List.mem_flatten] at h
  obtain ⟨l, hl, hj⟩ := h
  rw [List.mem_map] at hl
  obtain ⟨v, hv, rfl⟩ := hl
  exact mem_producersOf_lt hj

theorem mem_closStep_lt {apps : List Apply} {cur : List Nat}
    (hb : ∀ x ∈ cur, x < apps.length) :
    ∀ x ∈ closStep apps cur, x < apps.length := by
  intro x hx
  rw [closStep, List.mem_dedup, List.mem_append] at hx
  cases hx with
  | inl h => exact hb x h
  | inr h =>
    rw [List.mem_flatten] at h
    obtain ⟨l, hl, hx2⟩ := h
    rw [List.mem_map] at hl
    obtain ⟨y, hy, rfl⟩ := hl
    exact mem_directDeps_lt hx2

theorem mem_closIter_lt {apps : List Apply} :
    ∀ (n : Nat) (cur : List Nat), (∀ x ∈ cur, x < apps.length) →
      ∀ x ∈ closIter apps n cur, x < apps.length
  | 0, _, hb => hb
  | n + 1, cur, hb => mem_closIter_lt n (closStep apps cur) (mem_closStep_lt hb)

theorem mem_reachFromOutputs_lt {g : FGraph} {j : Nat} (h : j ∈ reachFromOutputs g) :
    j < g.applies.length := by
  refine mem_closIter_lt g.applies.length (outApplies g) ?_ j h
  intro x hx
  rw [outApplies, List.mem_flatten] at hx
  obtain ⟨l, hl, hx2⟩ := hx
  rw [List.mem_map] at hl
  obtain ⟨v, hv, rfl⟩ := hl
  exact mem_producersOf_lt hx2

/-- The global DAG property implies the output-reachable form of the
invariant. -/
theorem acyclic_noCycleFromOutputs {g : FGraph} (h : acyclicB g.applies = true) :
    noCycleFromOutputs g = true := by
  rw [noCycleFromOutputs, List.all_eq_true]
  intro i hi
  rw [acyclicB, List.all_eq_true] at h
  exact h i (List.mem_range.mpr (mem_reachFromOutputs_lt hi))

/-- A failed replace leaves the graph exactly as it was. -/
theorem replace_fail_eq {g : FGraph} {a b : Nat} (h : (replace g a b).2 ≠ none) :
    (replace g a b).1 = g := by
  unfold replace at h ⊢
  by_cases hc : typeOf g a = typeOf g b
      ∧ validateB (doReplace g a b) = true
      ∧ (doReplace g a b).outputs.length = g.outputs.length
  · rw [if_pos hc] at h
    exact absurd rfl h
  · rw [if_neg hc]

/-- A failed replace reports exactly InconsistencyError. -/
theorem replace_fail_err {g : FGraph} {a b : Nat} (h : (replace g a b).2 ≠ none) :
    (replace g a b).2 = some CoreErr.inconsistency := by
  unfold replace at h ⊢
  by_cases hc : typeOf g a = typeOf g b
      ∧ validateB (doReplace g a b) = true
      ∧ (doReplace g a b).outputs.length = g.outputs.length
  · rw [if_pos hc] at h
    exact absurd rfl h
  · rw [if_neg hc]

/-- A successful replace was re-validated: the result satisfies the DAG
property. -/
theorem replace_succ_acyclic {g : FGraph} {a b : Nat} (h : (replace g a b).2 = none) :
    acyclicB (replace g a b).1.applies = true := by
  unfold replace at h ⊢
  by_cases hc : typeOf g a = typeOf g b
      ∧ validateB (doReplace g a b) = true
      ∧ (doReplace g a b).outputs.length = g.outputs.length
  · rw [if_pos hc]
    exact hc.2.1
  · rw [if_neg hc] at h
    cases h

theorem typeOf_doReplace (g : FGraph) (a b v : Nat) :
    typeOf (doReplace g a b) v = typeOf g v := rfl

theorem map_typeOf_subst (g : FGraph) (a b : Nat) (h : typeOf g a = typeOf g b) :
    ∀ l : List Nat, (l.map (substVar a b)).map (fun v => typeOf g v) = l.map (fun v => typeOf g v)
  | [] => rfl
  | v :: t => by
    simp only [List.map_cons, map_typeOf_subst g a b h t]
    congr 1
    unfold substVar
    by_cases hv : v = a
    · rw [if_pos hv, hv, h]
    · rw [if_neg hv]

/-- Replace preserves the type signature of the declared outputs. -/
theorem replace_outTypes (g : FGraph) (a b : Nat) :
    outTypes (replace g a b).1 = outTypes g := by
  unfold replace
  by_cases hc : typeOf g a = typeOf g b
      ∧ validateB (doReplace g a b) = true
      ∧ (doReplace g a b).outputs.length = g.outputs.length
  · rw [if_pos hc]
    show outTypes (doReplace g a b) = outTypes g
    unfold outTypes
    exact map_typeOf_subst g a b hc.1 g.outputs
  · rw [if_neg hc]

theorem tryRules_outTypes : ∀ (rs : List LocalRule) (g : FGraph) (i : Nat),
    outTypes (tryRules rs g i).1 = outTypes g
  | [], _, _ => rfl
  | r :: rs, g, i => by
    unfold tryRules
    cases hc : r.transform g i with
    | none => rw [Option.elim_none]; exact tryRules_outTypes rs g i
    | some pr =>
      rw [Option.elim_some]
      by_cases hb : (replace g pr.1 pr.2).2 = none
      · rw [if_pos hb]
        exact replace_outTypes g pr.1 pr.2
      · rw [if_neg hb]
        exact tryRules_outTypes rs g i

theorem sweep_outTypes (rules : List LocalRule) : ∀ (l : List Nat) (g : FGraph) (ch : Bool),
    outTypes (sweep rules l g ch).1 = outTypes g
  | [], _, _ => rfl
  | i :: rest, g, ch => by
    unfold sweep
    rw [sweep_outTypes rules rest]
    exact tryRules_outTypes rules g i

theorem onePass_outTypes (rules : List LocalRule) (g : FGraph) :
    outTypes (onePass rules g).1 = outTypes g :=
  sweep_outTypes rules (List.range g.applies.length) g false

theorem engineLoop_outTypes (rules : List LocalRule) : ∀ (n : Nat) (g : FGraph),
    outTypes (engineLoop rules n g).1 = outTypes g
  | 0, _ => rfl
  | n + 1, g => by
    unfold engineLoop
    by_cases hc : (onePass rules g).2 = true
    · rw [if_pos hc, engineLoop_outTypes rules n]
      exact onePass_outTypes rules g
    · rw [if_neg hc]

/-- A rewrite attempt that reports no change also did not change the
graph. -/
theorem tryRules_false : ∀ {rs : List LocalRule} {g : FGraph} {i : Nat},
    (tryRules rs g i).2 = false → (tryRules rs g i).1 = g := by
  intro rs
  induction rs with
  | nil => intro g i _; rfl
  | cons r rs ih =>
    intro g i h
    unfold tryRules at h ⊢
    cases hc : r.transform g i with
    | none =>
      rw [hc] at h
      rw [Option.elim_none] at h ⊢
      exact ih h
    | some pr =>
      rw [hc] at h
      rw [Option.elim_some] at h ⊢
      by_cases hb : (replace g pr.1 pr.2).2 = none
      · rw [if_pos hb] at h
        cases h
      · rw [if_neg hb] at h ⊢
        exact ih h

theorem sweep_false (rules : List LocalRule) : ∀ (l : List Nat) (g : FGraph) (ch : Bool),
    (sweep rules l g ch).2 = false → (sweep rules l g ch).1 = g ∧ ch = false
  | [], g, ch, h => ⟨rfl, h⟩
  | i :: rest, g, ch, h => by
    unfold sweep at h ⊢
    obtain ⟨h1, h2⟩ := sweep_false rules rest (tryRules rules g i).1
      (ch || (tryRules rules g i).2) h
    have h3 : ch = false ∧ (tryRules rules g i).2 = false := by
      cases hch : ch <;> cases htr : (tryRules rules g i).2 <;> simp_all
    exact ⟨by rw [h1, tryRules_false h3.2], h3.1⟩

/-- A pass that reports no change left the graph untouched. -/
theorem onePass_false {rules : List LocalRule} {g : FGraph}
    (h : (onePass rules g).2 = false) : (onePass rules g).1 = g :=
  (sweep_false rules (List.range g.applies.length) g false h).1

/-- When the engine reports convergence, its result graph is a fixpoint of
a single pass. -/
theorem engineLoop_conv (rules : List LocalRule) : ∀ (n : Nat) (g : FGraph),
    (engineLoop rules n g).2 = true →
      (onePass rules (engineLoop rules n g).1).1 = (engineLoop rules n g).1
      ∧ (onePass rules (engineLoop rules n g).1).2 = false
  | 0, g, h => by
    unfold engineLoop at h ⊢
    have h2 : (onePass rules g).2 = false := by simpa using h
    exact ⟨onePass_false h2, h2⟩
  | n + 1, g, h => by
    unfold engineLoop at h ⊢
    by_cases hc : (onePass rules g).2 = true
    · rw [if_pos hc] at h ⊢
      exact engineLoop_conv rules n (onePass rules g).1 h
    · rw [if_neg hc] at h ⊢
      have h2 : (onePass rules g).2 = false := by
        cases htr : (onePass rules g).2
        · rfl
        · exact absurd htr hc
      exact ⟨onePass_false h2, h2⟩

/-- A graph whose replace validation fails: redirecting variable 1 to
variable 3 would make the two Apply nodes depend on each other. -/
def cycleG : FGraph :=
  mkFGraph [1] [3] [⟨0, [1], [2]⟩, ⟨1, [2], [3]⟩] [(1, 0), (2, 0), (3, 0)]

/-- A small acyclic graph on which a replace call succeeds. -/
def seqG : FGraph :=
  mkFGraph [1, 2] [4] [⟨0, [1], [4]⟩] [(1, 0), (2, 0), (4, 1)]

/-- A local rule that keeps swapping the graph input consumed by an Apply
between variables 1 and 2, so no pass count ever converges. -/
def flipRule : LocalRule :=
  ⟨"flip", ["flip"],
   fun g i =>
     match (g.applies.getD i defaultApply).inputs with
     | [] => none
     | v :: _ => if v = 1 then some (1, 2) else if v = 2 then some (2, 1) else none⟩

/-- A profile enabling the flip rule. -/
def flipProf : Profile := ⟨["flip"], []⟩

/-- The graph the flip rule oscillates on. -/
def flipG : FGraph :=
  mkFGraph [1, 2] [3] [⟨0, [1], [3]⟩] [(1, 0), (2, 0), (3, 1)]

/-- C3: for every sequence of FGraph.replace calls that succeed, starting
from a graph satisfying the DAG property (as every imported FGraph does),
the resulting FGraph contains no cycle reachable from any declared output:
no Apply node reachable from an output transitively depends on its own
output. -/
theorem C3_replace_preserves_dag (g : FGraph) (ps : List (Nat × Nat))
    (hg : acyclicB g.applies = true) (hok : replaceSeqOk g ps = true) :
    noCycleFromOutputs (replaceSeq g ps) = true := by
  induction ps generalizing g with
  | nil => exact acyclic_noCycleFromOutputs hg
  | cons p t ih =>
    unfold replaceSeqOk at hok
    rw [Bool.and_eq_true, decide_eq_true_eq] at hok
    unfold replaceSeq
    exact ih (replace g p.1 p.2).1 (replace_succ_acyclic hok.1) hok.2

/-- Witness for C3: on the concrete graph `seqG` the single replace call
succeeds and the result has no cycle reachable from the outputs. -/
theorem C3_replace_preserves_dag_witness :
    acyclicB seqG.applies = true
    ∧ replaceSeqOk seqG [(1, 2)] = true
    ∧ noCycleFromOutputs (replaceSeq seqG [(1, 2)]) = true :=
  ⟨by decide, by decide, C3_replace_preserves_dag seqG [(1, 2)] (by decide) (by decide)⟩

/-- C4: when replace fails validation it reports InconsistencyError and
leaves the FGraph exactly in its pre-replace state — in particular the
client index and the node set are identical to their pre-attempt state. -/
theorem C4_replace_rollback (g : FGraph) (a b : Nat) (h : (replace g a b).2 ≠ none) :
    (replace g a b).2 = some CoreErr.inconsistency
    ∧ (replace g a b).1 = g
    ∧ (replace g a b).1.clients = g.clients
    ∧ (replace g a b).1.applies = g.applies := by
  have he := replace_fail_eq h
  exact ⟨replace_fail_err h, he, by rw [he], by rw [he]⟩

/-- Witness for C4: on the concrete graph `cycleG` the replace call that
would create a cycle fails and rolls back. -/
theorem C4_replace_rollback_witness :
    (replace cycleG 1 3).2 ≠ none
    ∧ ((replace cycleG 1 3).2 = some CoreErr.inconsistency
       ∧ (replace cycleG 1 3).1 = cycleG
       ∧ (replace cycleG 1 3).1.clients = cycleG.clients
       ∧ (replace cycleG 1 3).1.applies = cycleG.applies) :=
  ⟨by decide, C4_replace_rollback cycleG 1 3 (by decide)⟩

/-- C5: a full compile pass preserves the number and the type signature of
the FGraph's declared outputs, for every rule database, profile and
iteration cap. -/
theorem C5_output_arity_and_types_preserved (rules : List LocalRule) (cap : Nat) (p : Profile)
    (ins outs : List Nat) (apps : List Apply) (tys : List (Nat × Nat)) :
    (compile rules cap p ins outs apps tys).outputs.length = outs.length
    ∧ outTypes (compile rules cap p ins outs apps tys)
        = outTypes (mkFGraph ins outs apps tys) := by
  have ht : outTypes (compile rules cap p ins outs apps tys)
      = outTypes (mkFGraph ins outs apps tys) :=
    engineLoop_outTypes (rules.filter (fun r => ruleEnabled p r)) cap
      (mkFGraph ins outs apps tys)
  refine ⟨?_, ht⟩
  have hlen := congrArg List.length ht
  simp only [outTypes, List.length_map] at hlen
  simpa [mkFGraph] using hlen

/-- When a pass no longer changes the graph, the engine halts on it at any
cap and reports convergence. -/
theorem engineLoop_fix (rules : List LocalRule) (cap : Nat) (x : FGraph)
    (h1 : (onePass rules x).2 = false) :
    engineLoop rules cap x = (x, true) := by
  cases cap with
  | zero =>
    unfold engineLoop
    rw [h1]
    rfl
  | succ n =>
    unfold engineLoop
    rw [if_neg (by simp [h1])]

/-- C8 counterexample: with a rule that keeps firing and an iteration cap
of one pass, the engine output is not a fixpoint — a second run on its own
output with the same profile changes the graph again. -/
theorem C8_not_always_fixpoint :
    (engineRun [flipRule] flipProf 1 ((engineRun [flipRule] flipProf 1 flipG).1)).1
      ≠ (engineRun [flipRule] flipProf 1 flipG).1 := by decide

/-- C8 (amended): whenever the engine reports convergence rather than the
iteration-cap warning, its output is a fixpoint — a second run with the
same rules, profile and cap produces no further changes. -/
theorem C8_fixpoint_when_converged (rules : List LocalRule) (p : Profile) (cap : Nat)
    (g : FGraph) (h : (engineRun rules p cap g).2 = true) :
    engineRun rules p cap (engineRun rules p cap g).1 = engineRun rules p cap g := by
  have hc := engineLoop_conv (rules.filter (fun r => ruleEnabled p r)) cap g h
  unfold engineRun
  rw [engineLoop_fix (rules.filter (fun r => ruleEnabled p r)) cap _ hc.2]
  rw [← h]
  exact Prod.mk.eta

/-- Witness for the amended C8: the empty rule database converges on
`flipG` in one pass and a second run changes nothing. -/
theorem C8_fixpoint_when_converged_witness :
    (engineRun [] flipProf 1 flipG).2 = true
    ∧ engineRun [] flipProf 1 (engineRun [] flipProf 1 flipG).1
        = engineRun [] flipProf 1 flipG :=
  ⟨by decide, C8_fixpoint_when_converged [] flipProf 1 flipG (by decide)⟩

/-- C9: compile is deterministic — two runs with identical rule database,
iteration cap, profile, inputs, outputs, nodes and types yield
structurally equivalent graphs. -/
theorem C9_compile_deterministic (rules : List LocalRule) (cap : Nat) (p : Profile)
    (ins outs : List Nat) (apps : List Apply) (tys : List (Nat × Nat)) :
    structEquiv (compile rules cap p ins outs apps tys)
      (compile rules cap p ins outs apps tys) :=
  ⟨rfl, rfl, rfl, rfl, rfl⟩

end AesaraSpec
